import Mathlib

/-!
Shallow embedding of the closed-form BER evaluation engine of the
`pulse_analysis_` repository (files `src/ber_toolbox.py`,
`src/pulse_toolbox.py`, `src/pulse_table_utils.py`).

Machine floats are modelled by an arbitrary linear ordered field `α`;
the transcendental library routines (`np.exp`, `np.sin`, `np.cos`,
`scipy.special.j0`, `np.pi`, `10 ** x`, `np.log`, `np.sqrt`) are
gathered in a record of abstract functions `MathKit`, so that every
definition below is executable once a concrete kit is supplied.
`numpy` arrays are modelled by `List α` and the process randomness
source (`np.random.Generator`) by a Boolean stream `u : ℕ → Bool`
read at successive positions: one fresh position per elementary
`rng.choice((-1.0, 1.0))` draw.
-/

namespace PulseAnalysis

/-- The transcendental routines the Python code takes from numpy/scipy:
`exp`, `sin`, `cos`, `j0` (Bessel, first kind, order zero), the constant
`pi`, `pow10 x` for `10 ** x`, `log` and `sqrt`. -/
structure MathKit (α : Type) where
  exp : α → α
  sin : α → α
  cos : α → α
  j0 : α → α
  pi : α
  pow10 : α → α
  log : α → α
  sqrt : α → α

variable {α : Type} [LinearOrderedField α]

/-- One elementary draw of `rng.choice((-1.0, 1.0))`: the Boolean stream
value is mapped to a sign in `{-1, +1}`. -/
def signVal (b : Bool) : α := if b then -1 else 1

/-- `np.arange 1 M 2`: the odd harmonics `1, 3, 5, ...` strictly below `M`
(`m = np.arange(1, M, 2)` in all three evaluators). -/
def oddHarmonics (M : ℕ) : List ℕ := List.range' 1 (M / 2) 2

/-- `ab = np.concatenate((np.arange(-N, 0), np.arange(1, N + 1)))`:
the ISI symbol positions `[-N..-1] ++ [1..N]`. -/
def isiPositions (N : ℕ) : List ℤ :=
  (List.range N).map (fun (j : ℕ) => (j : ℤ) - (N : ℤ)) ++
    (List.range N).map (fun (j : ℕ) => (j : ℤ) + 1)

/-- `exp_term = np.exp(-(m*omega)**2/2) / m` for one harmonic `m`. -/
def expTerm (K : MathKit α) (omega : α) (m : ℕ) : α :=
  K.exp (-((m : α) * omega) ^ 2 / 2) / (m : α)

/-- `np.prod(np.cos(m_omega * gk))` for one harmonic `m` over the ISI taps. -/
def cosProd (K : MathKit α) (omega : α) (m : ℕ) (gk : List α) : α :=
  (gk.map (fun x => K.cos ((m : α) * omega * x))).prod

/-- `np.prod(j0(m_omega * r_i))` for one harmonic `m` over the CCI taps. -/
def besselProd (K : MathKit α) (omega : α) (m : ℕ) (ri : List α) : α :=
  (ri.map (fun x => K.j0 ((m : α) * omega * x))).prod

/-- Body of the `for i, tau in enumerate(offsets)` loop of
`ber_isi_closed_form`: computes the BER at one timing offset `tau`.
`sgn j` is the `j`-th sign drawn by `rng.choice((-1.0, 1.0), size=ab.size)`
for this offset. -/
def berIsiAt (K : MathKit α) (g : α → α → α) (alpha coeff omega : α)
    (N M : ℕ) (sgn : ℕ → α) (tau : α) : α :=
  let T : α := 1
  let g0 := coeff * g (tau * T) alpha
  let gvals := (isiPositions N).map (fun (k : ℤ) => g ((tau - (k : α)) * T) alpha)
  let signs := (List.range (isiPositions N).length).map sgn
  let gk := List.zipWith (fun s v => coeff * s * v) signs gvals
  let suma := ((oddHarmonics M).map (fun m =>
    expTerm K omega m * K.sin ((m : α) * omega * g0) * cosProd K omega m gk)).sum
  1 / 2 - (2 / K.pi) * suma

/-- The offsets loop of `ber_isi_closed_form`, threading the position `pos`
of the next unread value of the randomness stream: each offset consumes
`ab.size` sign draws. -/
def berIsiFrom (K : MathKit α) (g : α → α → α) (alpha coeff omega : α)
    (N M : ℕ) (u : ℕ → Bool) : ℕ → List α → List α
  | _, [] => []
  | pos, tau :: rest =>
      berIsiAt K g alpha coeff omega N M (fun j => signVal (u (pos + j))) tau ::
        berIsiFrom K g alpha coeff omega N M u
          (pos + (isiPositions N).length) rest

/-- `ber_isi_closed_form` of `src/ber_toolbox.py`: closed-form BER with ISI
(Craig series).  The pulse is the capability `g(t, alpha)`; the batched
call `g(t_vals * T, alpha)` is modelled pointwise. -/
def ber_isi_closed_form (K : MathKit α) (g : α → α → α)
    (alpha snr_db : α) (nbits M : ℕ) (omega : α)
    (offsets : List α) (u : ℕ → Bool) : List α :=
  berIsiFrom K g alpha (K.pow10 (snr_db / 20)) omega (nbits / 2) M u 0 offsets

/-- Body of the offsets loop of `ber_cci_closed_form`: BER at one offset.
`sgn j` is the `j`-th of the `L` signs drawn by
`rng.choice((-1.0, 1.0), size=L)` for this offset. -/
def berCciAt (K : MathKit α) (g : α → α → α) (alpha coeff a_int omega : α)
    (L M : ℕ) (sgn : ℕ → α) (tau : α) : α :=
  let g0 := coeff * g tau alpha
  let ri := (List.range L).map (fun j => a_int * sgn j)
  let suma := ((oddHarmonics M).map (fun m =>
    expTerm K omega m * K.sin ((m : α) * omega * g0) * besselProd K omega m ri)).sum
  1 / 2 - (2 / K.pi) * suma

/-- The offsets loop of `ber_cci_closed_form`: each offset consumes `L`
sign draws. -/
def berCciFrom (K : MathKit α) (g : α → α → α) (alpha coeff a_int omega : α)
    (L M : ℕ) (u : ℕ → Bool) : ℕ → List α → List α
  | _, [] => []
  | pos, tau :: rest =>
      berCciAt K g alpha coeff a_int omega L M (fun j => signVal (u (pos + j))) tau ::
        berCciFrom K g alpha coeff a_int omega L M u (pos + L) rest

/-- `ber_cci_closed_form` of `src/ber_toolbox.py`: closed-form BER with
co-channel interference (Beaulieu approximation). -/
def ber_cci_closed_form (K : MathKit α) (g : α → α → α)
    (alpha snr_db sir_db : α) (L M : ℕ) (omega : α)
    (offsets : List α) (u : ℕ → Bool) : List α :=
  berCciFrom K g alpha (K.pow10 (snr_db / 20)) (K.pow10 (-sir_db / 20)) omega
    L M u 0 offsets

/-- Body of the offsets loop of `ber_cci_isi_closed_form`: BER at one
offset.  The `ab.size` ISI signs are drawn first, then the `L` CCI signs,
so `sgn` is read at `0, ..., ab.size - 1` for ISI and at
`ab.size, ..., ab.size + L - 1` for CCI. -/
def berCciIsiAt (K : MathKit α) (g : α → α → α) (alpha coeff a_int omega : α)
    (N L M : ℕ) (sgn : ℕ → α) (tau : α) : α :=
  let T : α := 1
  let g0 := coeff * g (tau * T) alpha
  let gvals := (isiPositions N).map (fun (k : ℤ) => g ((tau - (k : α)) * T) alpha)
  let signs := (List.range (isiPositions N).length).map sgn
  let gk := List.zipWith (fun s v => coeff * s * v) signs gvals
  let ri := (List.range L).map (fun j => a_int * sgn ((isiPositions N).length + j))
  let suma := ((oddHarmonics M).map (fun m =>
    expTerm K omega m * K.sin ((m : α) * omega * g0) * cosProd K omega m gk *
      besselProd K omega m ri)).sum
  1 / 2 - (2 / K.pi) * suma

/-- The offsets loop of `ber_cci_isi_closed_form`: each offset consumes
`ab.size` ISI sign draws followed by `L` CCI sign draws. -/
def berCciIsiFrom (K : MathKit α) (g : α → α → α) (alpha coeff a_int omega : α)
    (N L M : ℕ) (u : ℕ → Bool) : ℕ → List α → List α
  | _, [] => []
  | pos, tau :: rest =>
      berCciIsiAt K g alpha coeff a_int omega N L M
          (fun j => signVal (u (pos + j))) tau ::
        berCciIsiFrom K g alpha coeff a_int omega N L M u
          (pos + ((isiPositions N).length + L)) rest

/-- `ber_cci_isi_closed_form` of `src/ber_toolbox.py`: closed-form BER with
joint ISI and CCI. -/
def ber_cci_isi_closed_form (K : MathKit α) (g : α → α → α)
    (alpha snr_db sir_db : α) (L nbits M : ℕ) (omega : α)
    (offsets : List α) (u : ℕ → Bool) : List α :=
  berCciIsiFrom K g alpha (K.pow10 (snr_db / 20)) (K.pow10 (-sir_db / 20)) omega
    (nbits / 2) L M u 0 offsets

/-! ### Pulse layer (`src/pulse_toolbox.py`, `src/pulse_table_utils.py`) -/

/-- `np.sinc`: `sin(pi x) / (pi x)` with the removable singularity at
`x = 0` replaced by its limit `1`. -/
def sinc (K : MathKit α) (x : α) : α :=
  if x = 0 then 1 else K.sin (K.pi * x) / (K.pi * x)

/-- The tolerance of `np.isclose(a, 0.0)`: `atol + rtol * 0 = 1e-08`. -/
def iscloseZeroTol : α := 1 / 10 ^ 8

/-- `raised_cosine` of `src/pulse_toolbox.py`, pointwise on one sample. -/
def raised_cosine (K : MathKit α) (t alpha T : α) : α :=
  let sinc_part := sinc K (t / T)
  let cos_den := 1 - (2 * alpha * t / T) ^ 2
  let cos_part := if |cos_den| ≤ iscloseZeroTol then K.pi / 4
    else K.cos (K.pi * alpha * t / T) / cos_den
  sinc_part * cos_part

/-- `btrc_pulse` of `src/pulse_toolbox.py`, pointwise on one sample. -/
def btrc_pulse (K : MathKit α) (t alpha T : α) : α :=
  let beta := 2 * T * K.log 2 / alpha
  let sinc_term := sinc K (t / T)
  let num := 4 * beta * K.pi * t * K.sin (K.pi * alpha * t / T)
    + 2 * beta ^ 2 * K.cos (K.pi * alpha * t / T) - beta ^ 2
  let denom := 4 * K.pi ^ 2 * t ^ 2 + beta ^ 2
  sinc_term * (num / denom)

/-- `elp_pulse` of `src/pulse_toolbox.py`, pointwise on one sample. -/
def elp_pulse (K : MathKit α) (t alpha beta T : α) : α :=
  K.exp (-K.pi * beta / 2 * (t / T) ^ 2) * sinc K (t / T) * sinc K (alpha * (t / T))

/-- The Gaussian envelope `np.exp(-epsilon * pi**2 * tau**2)` of
`iplcp_pulse` at one normalized time. -/
def iplcp_envelopeAt (K : MathKit α) (tau epsilon : α) : α :=
  K.exp (-epsilon * K.pi ^ 2 * tau ^ 2)

/-- The closed-form value `envelope * (sinc(tau) * bracket)**gamma` that
`iplcp_pulse` computes elementwise (before its center-index overwrite),
with the `denom_safe` guard `np.where(denom == 0, 1e-12, denom)`.
`gamma` is the shaping exponent (a natural number; the code default is
the float `1.0`). -/
def iplcp_formulaAt (K : MathKit α) (tau alpha mu epsilon : α) (gamma : ℕ) : α :=
  let denom := K.pi ^ 2 * alpha ^ 2 * tau ^ 2
  let denom_safe := if denom = 0 then 1 / 10 ^ 12 else denom
  let sinc_tau := sinc K tau
  let term1 := 4 * (1 - mu) * K.sin (K.pi * alpha * tau / 2) ^ 2
  let term2 := K.pi * alpha * mu * tau * K.sin (K.pi * alpha * tau)
  let bracket := (term1 + term2) / denom_safe
  iplcp_envelopeAt K tau epsilon * (sinc_tau * bracket) ^ gamma

/-- `np.argmin(np.abs(tau))` scan: index and absolute value of the best
candidate so far, first occurrence of the minimum wins. -/
def argminAbsAux : ℕ → ℕ → α → List α → ℕ
  | _, best, _, [] => best
  | i, best, bval, x :: rest =>
      if |x| < bval then argminAbsAux (i + 1) i |x| rest
      else argminAbsAux (i + 1) best bval rest

/-- `np.argmin(np.abs(tau))`: first index of minimal absolute value
(0 on the empty list, on which numpy instead raises). -/
def argminAbs : List α → ℕ
  | [] => 0
  | x :: rest => argminAbsAux 1 0 |x| rest

/-- `iplcp_pulse` of `src/pulse_toolbox.py` on a sample vector: evaluates
the closed form elementwise, then overwrites the entry at
`center_idx = np.argmin(np.abs(tau))` with `envelope[center_idx] * 1.0`
(the comment in the source says this fixes the singularity at `tau = 0`). -/
def iplcp_pulse (K : MathKit α) (t : List α) (alpha mu epsilon T : α)
    (gamma : ℕ) : List α :=
  let tau := t.map (fun x => x / T)
  let pulse := tau.map (fun x => iplcp_formulaAt K x alpha mu epsilon gamma)
  pulse.set (argminAbs tau)
    (iplcp_envelopeAt K (tau.getD (argminAbs tau) 0) epsilon * 1)

/-- The registry `PULSE_FNS` of `src/pulse_toolbox.py`: the four pulses
registered by the `@register` decorator, each as a function of the sample
vector, `alpha`, and `T`, with the remaining keyword parameters at their
source defaults (`beta = 0.1`; `mu = 1.6`, `gamma = 1`, `epsilon = 0.1`). -/
def PULSE_FNS (K : MathKit α) : List (String × (List α → α → α → List α)) :=
  [("raised_cosine", fun t a T => t.map (fun x => raised_cosine K x a T)),
   ("btrc", fun t a T => t.map (fun x => btrc_pulse K x a T)),
   ("elp", fun t a T => t.map (fun x => elp_pulse K x a (1 / 10) T)),
   ("iplcp", fun t a T => iplcp_pulse K t a (16 / 10) (1 / 10) T 1)]

/-- The `Union[str, Callable]` pulse argument of the evaluators: either a
registry name or a callable `(t, alpha) -> amplitude`. -/
inductive PulseRef (α : Type) where
  | name (s : String)
  | fn (g : List α → α → List α)

/-- `_resolve_pulse` of `src/ber_toolbox.py`: registry names are looked up
in `PULSE_FNS` (error if absent), callables are returned as-is.  A
resolved registry function is called with `T` at its default `1.0`. -/
def resolve_pulse (K : MathKit α) :
    PulseRef α → Except String (List α → α → List α)
  | .name s =>
    match (PULSE_FNS K).lookup s with
    | none => .error ("Unknown pulse name " ++ s ++ " in PULSE_FNS.")
    | some f => .ok (fun t a => f t a 1)
  | .fn g => .ok g

/-- `truncate_pulse` of `src/pulse_table_utils.py`, pointwise:
`out * (np.abs(t) <= t_max)`, the Boolean factor cast to `0` or `1`. -/
def truncate_pulse (base_pulse : α → α → α) (t_max : α) : α → α → α :=
  fun t a => base_pulse t a * (if |t| ≤ t_max then 1 else 0)

/-- `_normalize_energy_discrete` of `src/pulse_toolbox.py`. -/
def normalizeEnergyDiscrete (K : MathKit α) (h : List α) : List α :=
  let energy := (h.map (fun x => x ^ 2)).sum
  if energy > 1 / 10 ^ 12 then h.map (fun x => x / K.sqrt energy) else h

/-- `np.trapz(ys, dx)`: the trapezoid rule over consecutive samples. -/
def trapz (ys : List α) (dx : α) : α :=
  (List.zipWith (fun a b => (a + b) / 2) ys ys.tail).sum * dx

/-- `_normalize_energy_continuous` of `src/pulse_toolbox.py`. -/
def normalizeEnergyContinuous (K : MathKit α) (h : List α) (dt : α) : List α :=
  let energy := trapz (h.map (fun x => x ^ 2)) dt
  if energy > 1 / 10 ^ 12 then h.map (fun x => x / K.sqrt energy) else h

/-- `_normalize_amplitude` of `src/pulse_toolbox.py` (`np.max` over the
empty vector, on which numpy raises, is modelled as `0`). -/
def normalizeAmplitude (h : List α) : List α :=
  let max_val := (h.map (fun x => |x|)).foldr max 0
  if max_val > 1 / 10 ^ 12 then h.map (fun x => x / max_val) else h

/-- `compute_pulse` of `src/pulse_toolbox.py` (with `return_energy=False`
and the pulse keyword parameters at their defaults): registry lookup,
evaluation, then the optional normalization step.  Python falsiness of
`normalize` (both `None` and the empty string skip normalization) is kept. -/
def compute_pulse (K : MathKit α) (t : List α) (name : String) (alpha T : α)
    (normalize : Option String) (dt : Option α) : Except String (List α) :=
  match (PULSE_FNS K).lookup name with
  | none => .error ("Unknown pulse " ++ name)
  | some f =>
    let h := f t alpha T
    match normalize with
    | none => .ok h
    | some mode =>
      if mode = "" then .ok h
      else if mode = "discrete" then .ok (normalizeEnergyDiscrete K h)
      else if mode = "continuous" then
        match dt with
        | none => .error "dt required for continuous normalization; call t_axis first."
        | some d => .ok (normalizeEnergyContinuous K h d)
      else if mode = "amplitude" then .ok (normalizeAmplitude h)
      else .error ("Unknown normalize mode " ++ mode)

/-! ### Spec-side definitions and concrete kits -/

/-- Index of ISI position `k ∈ [-N..-1] ∪ [1..N]` inside the tap vector
`ab`: position `k < 0` sits at index `k + N`, position `k ≥ 1` at index
`N + (k - 1)`. -/
def tapIdx (N : ℕ) (k : ℤ) : ℕ :=
  if k < 0 then (k + N).toNat else N + (k - 1).toNat

/-- The ISI BER formula as the specification words it:
`BER(tau) = 1/2 - (2/pi) * sum over odd m < M of
exp(-(m w)^2/2)/m * sin(m w g0) * prod over k in [-N..-1] u [1..N] of
cos(m w gk)` with `g0 = coeff * g(tau)` and
`gk = coeff * sign_k * g(tau - k)`. -/
def berIsiSpec (K : MathKit α) (g : α → α → α) (alpha coeff omega : α)
    (N M : ℕ) (sgn : ℤ → α) (tau : α) : α :=
  1 / 2 - (2 / K.pi) * ((oddHarmonics M).map (fun (m : ℕ) =>
    K.exp (-((m : α) * omega) ^ 2 / 2) / (m : α)
      * K.sin ((m : α) * omega * (coeff * g tau alpha))
      * ((isiPositions N).map (fun (k : ℤ) =>
          K.cos ((m : α) * omega *
            (coeff * sgn k * g (tau - (k : α)) alpha)))).prod)).sum

/-- The harmonic-wise envelope `S = sum over odd m < M of
exp(-(m w)^2/2)/m` that dominates the series in absolute value. -/
def seriesBound (K : MathKit α) (omega : α) (M : ℕ) : α :=
  ((oddHarmonics M).map (expTerm K omega)).sum

/-- A concrete rational-valued kit used to evaluate the engine on closed
inputs: the transcendental slots are filled with simple bounded stand-ins. -/
def ratKit : MathKit ℚ :=
  ⟨fun _ => 1, fun _ => 0, fun _ => 0, fun _ => 0, 3, id, id, id⟩

/-- The real-valued kit: the mathematical functions the numpy/scipy
routines approximate (`j0` left as a bounded stand-in, since Mathlib has
no Bessel function; it is irrelevant to the facts proved over `ℝ`). -/
noncomputable def realKit : MathKit ℝ :=
  ⟨Real.exp, Real.sin, Real.cos, fun _ => 0, Real.pi,
    fun x => Real.exp (x * Real.log 10), Real.log, Real.sqrt⟩

/-! ### Helper lemmas -/

theorem isiPositions_length (N : ℕ) : (isiPositions N).length = 2 * N := by
  simp [isiPositions, two_mul]

theorem tapIdx_isiPositions (N i : ℕ) (h : i < (isiPositions N).length) :
    tapIdx N ((isiPositions N)[i]) = i := by
  have hN : i < 2 * N := by rwa [isiPositions_length] at h
  unfold isiPositions
  rw [List.getElem_append]
  by_cases h' : i < N
  · rw [dif_pos (by simpa using h')]
    rw [List.getElem_map, List.getElem_range]
    unfold tapIdx
    rw [if_pos (by omega)]
    omega
  · rw [dif_neg (by simpa using h')]
    simp only [List.length_map, List.length_range]
    rw [List.getElem_map, List.getElem_range]
    unfold tapIdx
    rw [if_neg (by omega)]
    omega

theorem zipWith_signs_eq (c : α) (σ : ℕ → α) (h : ℤ → α) (N : ℕ) :
    List.zipWith (fun s v => c * s * v)
      ((List.range (isiPositions N).length).map σ) ((isiPositions N).map h)
    = (isiPositions N).map (fun k => c * σ (tapIdx N k) * h k) := by
  apply List.ext_getElem
  · simp
  · intro i h1 h2
    have hi : i < (isiPositions N).length := by simpa using h2
    simp only [List.getElem_zipWith, List.getElem_map]
    rw [List.getElem_range]
    rw [tapIdx_isiPositions N i hi]

theorem oddHarmonics_length (M : ℕ) : (oddHarmonics M).length = M / 2 := by
  simp [oddHarmonics]

theorem oddHarmonics_eq_filter (M : ℕ) :
    oddHarmonics M = (List.range M).filter (fun m => m % 2 = 1) := by
  induction M with
  | zero => rfl
  | succ n ih =>
    rw [List.range_succ, List.filter_append]
    unfold oddHarmonics at ih ⊢
    rcases Nat.even_or_odd n with he | ho
    · obtain ⟨q, hq⟩ := he
      have h2 : (n + 1) / 2 = n / 2 := by omega
      have h3 : (List.filter (fun m => decide (m % 2 = 1)) [n]) = [] := by
        simp; omega
      rw [h2, h3, ih, List.append_nil]
    · obtain ⟨q, hq⟩ := ho
      have h2 : (n + 1) / 2 = n / 2 + 1 := by omega
      have h3 : (List.filter (fun m => decide (m % 2 = 1)) [n]) = [n] := by
        simp; omega
      rw [h2, h3, List.range'_concat, ih]
      congr 2
      omega

theorem mem_oddHarmonics (M m : ℕ) :
    m ∈ oddHarmonics M ↔ m % 2 = 1 ∧ m < M := by
  rw [oddHarmonics_eq_filter, List.mem_filter, List.mem_range]
  simp [and_comm]

theorem berIsiFrom_getElem (K : MathKit α) (g : α → α → α)
    (alpha coeff omega : α) (N M : ℕ) (u : ℕ → Bool) :
    ∀ (l : List α) (pos i : ℕ),
      (berIsiFrom K g alpha coeff omega N M u pos l)[i]? =
        (l[i]?).map (fun tau => berIsiAt K g alpha coeff omega N M
          (fun j => signVal (u (pos + i * (isiPositions N).length + j))) tau) := by
  intro l
  induction l with
  | nil => intro pos i; simp [berIsiFrom]
  | cons tau rest ih =>
    intro pos i
    cases i with
    | zero => simp [berIsiFrom]
    | succ n =>
      simp only [berIsiFrom, List.getElem?_cons_succ]
      rw [ih]
      congr 1
      funext tau
      congr 1
      funext j
      congr 2
      rw [Nat.succ_mul]
      omega

theorem berCciFrom_getElem (K : MathKit α) (g : α → α → α)
    (alpha coeff a_int omega : α) (L M : ℕ) (u : ℕ → Bool) :
    ∀ (l : List α) (pos i : ℕ),
      (berCciFrom K g alpha coeff a_int omega L M u pos l)[i]? =
        (l[i]?).map (fun tau => berCciAt K g alpha coeff a_int omega L M
          (fun j => signVal (u (pos + i * L + j))) tau) := by
  intro l
  induction l with
  | nil => intro pos i; simp [berCciFrom]
  | cons tau rest ih =>
    intro pos i
    cases i with
    | zero => simp [berCciFrom]
    | succ n =>
      simp only [berCciFrom, List.getElem?_cons_succ]
      rw [ih]
      congr 1
      funext tau
      congr 1
      funext j
      congr 2
      rw [Nat.succ_mul]
      omega

theorem berCciIsiFrom_getElem (K : MathKit α) (g : α → α → α)
    (alpha coeff a_int omega : α) (N L M : ℕ) (u : ℕ → Bool) :
    ∀ (l : List α) (pos i : ℕ),
      (berCciIsiFrom K g alpha coeff a_int omega N L M u pos l)[i]? =
        (l[i]?).map (fun tau => berCciIsiAt K g alpha coeff a_int omega N L M
          (fun j => signVal (u (pos + i * ((isiPositions N).length + L) + j))) tau) := by
  intro l
  induction l with
  | nil => intro pos i; simp [berCciIsiFrom]
  | cons tau rest ih =>
    intro pos i
    cases i with
    | zero => simp [berCciIsiFrom]
    | succ n =>
      simp only [berCciIsiFrom, List.getElem?_cons_succ]
      rw [ih]
      congr 1
      funext tau
      congr 1
      funext j
      congr 2
      rw [Nat.succ_mul]
      omega

theorem berIsiAt_eq_spec (K : MathKit α) (g : α → α → α)
    (alpha coeff omega : α) (N M : ℕ) (sgn : ℕ → α) (tau : α) :
    berIsiAt K g alpha coeff omega N M sgn tau
      = berIsiSpec K g alpha coeff omega N M (fun k => sgn (tapIdx N k)) tau := by
  simp only [berIsiAt, berIsiSpec, expTerm, cosProd, mul_one, zipWith_signs_eq,
    List.map_map, Function.comp_def]

theorem berCciIsiAt_L0 (K : MathKit α) (g : α → α → α)
    (alpha coeff a_int omega : α) (N M : ℕ) (sgn : ℕ → α) (tau : α) :
    berCciIsiAt K g alpha coeff a_int omega N 0 M sgn tau
      = berIsiAt K g alpha coeff omega N M sgn tau := by
  simp only [berCciIsiAt, berIsiAt, besselProd, List.range_zero, List.map_nil,
    List.prod_nil, mul_one]

theorem berCciIsiFrom_L0 (K : MathKit α) (g : α → α → α)
    (alpha coeff a_int omega : α) (N M : ℕ) (u : ℕ → Bool) :
    ∀ (l : List α) (pos : ℕ),
      berCciIsiFrom K g alpha coeff a_int omega N 0 M u pos l
        = berIsiFrom K g alpha coeff omega N M u pos l := by
  intro l
  induction l with
  | nil => intro pos; rfl
  | cons tau rest ih =>
    intro pos
    simp only [berCciIsiFrom, berIsiFrom, berCciIsiAt_L0, Nat.add_zero, ih]

theorem berIsiAt_congr (K : MathKit α) (g : α → α → α)
    (alpha coeff omega : α) (N M : ℕ) (sgn1 sgn2 : ℕ → α) (tau : α)
    (hsgn : ∀ j < (isiPositions N).length, sgn1 j = sgn2 j) :
    berIsiAt K g alpha coeff omega N M sgn1 tau
      = berIsiAt K g alpha coeff omega N M sgn2 tau := by
  have hm : (List.range (isiPositions N).length).map sgn1
      = (List.range (isiPositions N).length).map sgn2 :=
    List.map_congr_left (fun j hj => hsgn j (List.mem_range.mp hj))
  simp only [berIsiAt, hm]

theorem berCciAt_congr (K : MathKit α) (g : α → α → α)
    (alpha coeff a_int omega : α) (L M : ℕ) (sgn1 sgn2 : ℕ → α) (tau : α)
    (hsgn : ∀ j < L, sgn1 j = sgn2 j) :
    berCciAt K g alpha coeff a_int omega L M sgn1 tau
      = berCciAt K g alpha coeff a_int omega L M sgn2 tau := by
  have hm : (List.range L).map (fun j => a_int * sgn1 j)
      = (List.range L).map (fun j => a_int * sgn2 j) :=
    List.map_congr_left (fun j hj => by rw [hsgn j (List.mem_range.mp hj)])
  simp only [berCciAt, hm]

theorem berCciIsiAt_congr (K : MathKit α) (g : α → α → α)
    (alpha coeff a_int omega : α) (N L M : ℕ) (sgn1 sgn2 : ℕ → α) (tau : α)
    (hsgn : ∀ j < (isiPositions N).length + L, sgn1 j = sgn2 j) :
    berCciIsiAt K g alpha coeff a_int omega N L M sgn1 tau
      = berCciIsiAt K g alpha coeff a_int omega N L M sgn2 tau := by
  have hm : (List.range (isiPositions N).length).map sgn1
      = (List.range (isiPositions N).length).map sgn2 :=
    List.map_congr_left (fun j hj => hsgn j
      (Nat.lt_of_lt_of_le (List.mem_range.mp hj) (Nat.le_add_right _ _)))
  have hr : (List.range L).map (fun j => a_int * sgn1 ((isiPositions N).length + j))
      = (List.range L).map (fun j => a_int * sgn2 ((isiPositions N).length + j)) :=
    List.map_congr_left (fun j hj => by
      rw [hsgn _ (Nat.add_lt_add_left (List.mem_range.mp hj) _)])
  simp only [berCciIsiAt, hm, hr]

theorem berIsiFrom_congr (K : MathKit α) (g : α → α → α)
    (alpha coeff omega : α) (N M : ℕ) (u1 u2 : ℕ → Bool) :
    ∀ (l : List α) (pos : ℕ),
      (∀ p < l.length * (isiPositions N).length, u1 (pos + p) = u2 (pos + p)) →
      berIsiFrom K g alpha coeff omega N M u1 pos l
        = berIsiFrom K g alpha coeff omega N M u2 pos l := by
  intro l
  induction l with
  | nil => intro pos _; rfl
  | cons tau rest ih =>
    intro pos hu
    rw [List.length_cons, Nat.succ_mul] at hu
    unfold berIsiFrom
    congr 1
    · apply berIsiAt_congr
      intro j hj
      rw [hu j (by omega)]
    · apply ih
      intro p hp
      have := hu ((isiPositions N).length + p) (by omega)
      rw [show pos + (isiPositions N).length + p
        = pos + ((isiPositions N).length + p) from by omega]
      exact this

theorem berCciFrom_congr (K : MathKit α) (g : α → α → α)
    (alpha coeff a_int omega : α) (L M : ℕ) (u1 u2 : ℕ → Bool) :
    ∀ (l : List α) (pos : ℕ),
      (∀ p < l.length * L, u1 (pos + p) = u2 (pos + p)) →
      berCciFrom K g alpha coeff a_int omega L M u1 pos l
        = berCciFrom K g alpha coeff a_int omega L M u2 pos l := by
  intro l
  induction l with
  | nil => intro pos _; rfl
  | cons tau rest ih =>
    intro pos hu
    rw [List.length_cons, Nat.succ_mul] at hu
    unfold berCciFrom
    congr 1
    · apply berCciAt_congr
      intro j hj
      rw [hu j (by omega)]
    · apply ih
      intro p hp
      have := hu (L + p) (by omega)
      rw [show pos + L + p = pos + (L + p) from by omega]
      exact this

theorem berCciIsiFrom_congr (K : MathKit α) (g : α → α → α)
    (alpha coeff a_int omega : α) (N L M : ℕ) (u1 u2 : ℕ → Bool) :
    ∀ (l : List α) (pos : ℕ),
      (∀ p < l.length * ((isiPositions N).length + L),
        u1 (pos + p) = u2 (pos + p)) →
      berCciIsiFrom K g alpha coeff a_int omega N L M u1 pos l
        = berCciIsiFrom K g alpha coeff a_int omega N L M u2 pos l := by
  intro l
  induction l with
  | nil => intro pos _; rfl
  | cons tau rest ih =>
    intro pos hu
    rw [List.length_cons, Nat.succ_mul] at hu
    unfold berCciIsiFrom
    congr 1
    · apply berCciIsiAt_congr
      intro j hj
      rw [hu j (by omega)]
    · apply ih
      intro p hp
      have := hu ((isiPositions N).length + L + p) (by omega)
      rw [show pos + ((isiPositions N).length + L) + p
        = pos + ((isiPositions N).length + L + p) from by omega]
      exact this

theorem abs_listSum_le (f b : ℕ → α) :
    ∀ l : List ℕ, (∀ m ∈ l, |f m| ≤ b m) → |(l.map f).sum| ≤ (l.map b).sum := by
  intro l
  induction l with
  | nil => intro _; simp
  | cons a t ih =>
    intro h
    simp only [List.map_cons, List.sum_cons]
    calc |f a + (t.map f).sum| ≤ |f a| + |(t.map f).sum| := abs_add _ _
      _ ≤ b a + (t.map b).sum :=
        add_le_add (h a (List.mem_cons_self a t))
          (ih fun m hm => h m (List.mem_cons_of_mem a hm))

theorem abs_listProd_le_one :
    ∀ l : List α, (∀ x ∈ l, |x| ≤ 1) → |l.prod| ≤ 1 := by
  intro l
  induction l with
  | nil => intro _; simp
  | cons a t ih =>
    intro h
    rw [List.prod_cons, abs_mul]
    exact mul_le_one₀ (h a (List.mem_cons_self a t)) (abs_nonneg _)
      (ih fun x hx => h x (List.mem_cons_of_mem a hx))

theorem expTerm_nonneg (K : MathKit α) (hexp : ∀ x, 0 ≤ K.exp x)
    (omega : α) (m : ℕ) : 0 ≤ expTerm K omega m :=
  div_nonneg (hexp _) (Nat.cast_nonneg m)

theorem cosProd_abs_le_one (K : MathKit α) (hcos : ∀ x, |K.cos x| ≤ 1)
    (omega : α) (m : ℕ) (gk : List α) : |cosProd K omega m gk| ≤ 1 := by
  apply abs_listProd_le_one
  intro x hx
  obtain ⟨y, _, rfl⟩ := List.mem_map.mp hx
  exact hcos _

theorem besselProd_abs_le_one (K : MathKit α) (hj0 : ∀ x, |K.j0 x| ≤ 1)
    (omega : α) (m : ℕ) (ri : List α) : |besselProd K omega m ri| ≤ 1 := by
  apply abs_listProd_le_one
  intro x hx
  obtain ⟨y, _, rfl⟩ := List.mem_map.mp hx
  exact hj0 _

theorem term_abs_le (e s p : α) (he : 0 ≤ e) (h1 : |s| ≤ 1) (h2 : |p| ≤ 1) :
    |e * s * p| ≤ e := by
  rw [abs_mul, abs_mul, abs_of_nonneg he, mul_assoc]
  calc e * (|s| * |p|) ≤ e * 1 :=
        mul_le_mul_of_nonneg_left (mul_le_one₀ h1 (abs_nonneg _) h2) he
    _ = e := mul_one e

theorem term4_abs_le (e s p q : α) (he : 0 ≤ e) (h1 : |s| ≤ 1)
    (h2 : |p| ≤ 1) (h3 : |q| ≤ 1) : |e * s * p * q| ≤ e := by
  calc |e * s * p * q| = |e * s * p| * |q| := abs_mul _ _
    _ ≤ e * 1 := mul_le_mul (term_abs_le e s p he h1 h2) h3 (abs_nonneg _) he
    _ = e := mul_one e

theorem ber_of_suma_bounds (K : MathKit α) (hpi : 0 < K.pi) (suma S : α)
    (h : |suma| ≤ S) :
    1 / 2 - 2 / K.pi * S ≤ 1 / 2 - 2 / K.pi * suma ∧
      1 / 2 - 2 / K.pi * suma ≤ 1 / 2 + 2 / K.pi * S := by
  have hc : (0 : α) ≤ 2 / K.pi := div_nonneg (by norm_num) (le_of_lt hpi)
  obtain ⟨h1, h2⟩ := abs_le.mp h
  have ha := mul_le_mul_of_nonneg_left h2 hc
  have hb := mul_le_mul_of_nonneg_left h1 hc
  rw [mul_neg] at hb
  constructor <;> linarith

theorem berIsiAt_bounds (K : MathKit α) (g : α → α → α)
    (alpha coeff omega : α) (N M : ℕ) (sgn : ℕ → α) (tau : α)
    (hexp : ∀ x, 0 ≤ K.exp x) (hsin : ∀ x, |K.sin x| ≤ 1)
    (hcos : ∀ x, |K.cos x| ≤ 1) (hpi : 0 < K.pi) :
    1 / 2 - 2 / K.pi * seriesBound K omega M
        ≤ berIsiAt K g alpha coeff omega N M sgn tau ∧
      berIsiAt K g alpha coeff omega N M sgn tau
        ≤ 1 / 2 + 2 / K.pi * seriesBound K omega M := by
  simp only [berIsiAt]
  apply ber_of_suma_bounds K hpi
  unfold seriesBound
  apply abs_listSum_le
  intro m _
  exact term_abs_le _ _ _ (expTerm_nonneg K hexp omega m) (hsin _)
    (cosProd_abs_le_one K hcos omega m _)

theorem berCciAt_bounds (K : MathKit α) (g : α → α → α)
    (alpha coeff a_int omega : α) (L M : ℕ) (sgn : ℕ → α) (tau : α)
    (hexp : ∀ x, 0 ≤ K.exp x) (hsin : ∀ x, |K.sin x| ≤ 1)
    (hj0 : ∀ x, |K.j0 x| ≤ 1) (hpi : 0 < K.pi) :
    1 / 2 - 2 / K.pi * seriesBound K omega M
        ≤ berCciAt K g alpha coeff a_int omega L M sgn tau ∧
      berCciAt K g alpha coeff a_int omega L M sgn tau
        ≤ 1 / 2 + 2 / K.pi * seriesBound K omega M := by
  simp only [berCciAt]
  apply ber_of_suma_bounds K hpi
  unfold seriesBound
  apply abs_listSum_le
  intro m _
  exact term_abs_le _ _ _ (expTerm_nonneg K hexp omega m) (hsin _)
    (besselProd_abs_le_one K hj0 omega m _)

theorem berCciIsiAt_bounds (K : MathKit α) (g : α → α → α)
    (alpha coeff a_int omega : α) (N L M : ℕ) (sgn : ℕ → α) (tau : α)
    (hexp : ∀ x, 0 ≤ K.exp x) (hsin : ∀ x, |K.sin x| ≤ 1)
    (hcos : ∀ x, |K.cos x| ≤ 1) (hj0 : ∀ x, |K.j0 x| ≤ 1) (hpi : 0 < K.pi) :
    1 / 2 - 2 / K.pi * seriesBound K omega M
        ≤ berCciIsiAt K g alpha coeff a_int omega N L M sgn tau ∧
      berCciIsiAt K g alpha coeff a_int omega N L M sgn tau
        ≤ 1 / 2 + 2 / K.pi * seriesBound K omega M := by
  simp only [berCciIsiAt]
  apply ber_of_suma_bounds K hpi
  unfold seriesBound
  apply abs_listSum_le
  intro m _
  exact term4_abs_le _ _ _ _ (expTerm_nonneg K hexp omega m) (hsin _)
    (cosProd_abs_le_one K hcos omega m _) (besselProd_abs_le_one K hj0 omega m _)

theorem berIsiFrom_bounds (K : MathKit α) (g : α → α → α)
    (alpha coeff omega : α) (N M : ℕ) (u : ℕ → Bool)
    (hexp : ∀ x, 0 ≤ K.exp x) (hsin : ∀ x, |K.sin x| ≤ 1)
    (hcos : ∀ x, |K.cos x| ≤ 1) (hpi : 0 < K.pi) :
    ∀ (l : List α) (pos : ℕ),
      ∀ v ∈ berIsiFrom K g alpha coeff omega N M u pos l,
        1 / 2 - 2 / K.pi * seriesBound K omega M ≤ v ∧
          v ≤ 1 / 2 + 2 / K.pi * seriesBound K omega M := by
  intro l
  induction l with
  | nil => intro pos v hv; simp [berIsiFrom] at hv
  | cons tau rest ih =>
    intro pos v hv
    unfold berIsiFrom at hv
    rcases List.mem_cons.mp hv with h | h
    · exact h ▸ berIsiAt_bounds K g alpha coeff omega N M _ tau hexp hsin hcos hpi
    · exact ih _ v h

theorem berCciFrom_bounds (K : MathKit α) (g : α → α → α)
    (alpha coeff a_int omega : α) (L M : ℕ) (u : ℕ → Bool)
    (hexp : ∀ x, 0 ≤ K.exp x) (hsin : ∀ x, |K.sin x| ≤ 1)
    (hj0 : ∀ x, |K.j0 x| ≤ 1) (hpi : 0 < K.pi) :
    ∀ (l : List α) (pos : ℕ),
      ∀ v ∈ berCciFrom K g alpha coeff a_int omega L M u pos l,
        1 / 2 - 2 / K.pi * seriesBound K omega M ≤ v ∧
          v ≤ 1 / 2 + 2 / K.pi * seriesBound K omega M := by
  intro l
  induction l with
  | nil => intro pos v hv; simp [berCciFrom] at hv
  | cons tau rest ih =>
    intro pos v hv
    unfold berCciFrom at hv
    rcases List.mem_cons.mp hv with h | h
    · exact h ▸ berCciAt_bounds K g alpha coeff a_int omega L M _ tau hexp hsin hj0 hpi
    · exact ih _ v h

theorem berCciIsiFrom_bounds (K : MathKit α) (g : α → α → α)
    (alpha coeff a_int omega : α) (N L M : ℕ) (u : ℕ → Bool)
    (hexp : ∀ x, 0 ≤ K.exp x) (hsin : ∀ x, |K.sin x| ≤ 1)
    (hcos : ∀ x, |K.cos x| ≤ 1) (hj0 : ∀ x, |K.j0 x| ≤ 1) (hpi : 0 < K.pi) :
    ∀ (l : List α) (pos : ℕ),
      ∀ v ∈ berCciIsiFrom K g alpha coeff a_int omega N L M u pos l,
        1 / 2 - 2 / K.pi * seriesBound K omega M ≤ v ∧
          v ≤ 1 / 2 + 2 / K.pi * seriesBound K omega M := by
  intro l
  induction l with
  | nil => intro pos v hv; simp [berCciIsiFrom] at hv
  | cons tau rest ih =>
    intro pos v hv
    unfold berCciIsiFrom at hv
    rcases List.mem_cons.mp hv with h | h
    · exact h ▸ berCciIsiAt_bounds K g alpha coeff a_int omega N L M _ tau
        hexp hsin hcos hj0 hpi
    · exact ih _ v h

theorem berIsiFrom_length (K : MathKit α) (g : α → α → α)
    (alpha coeff omega : α) (N M : ℕ) (u : ℕ → Bool) :
    ∀ (l : List α) (pos : ℕ),
      (berIsiFrom K g alpha coeff omega N M u pos l).length = l.length := by
  intro l
  induction l with
  | nil => intro pos; rfl
  | cons tau rest ih => intro pos; simp [berIsiFrom, ih]

theorem berCciFrom_length (K : MathKit α) (g : α → α → α)
    (alpha coeff a_int omega : α) (L M : ℕ) (u : ℕ → Bool) :
    ∀ (l : List α) (pos : ℕ),
      (berCciFrom K g alpha coeff a_int omega L M u pos l).length = l.length := by
  intro l
  induction l with
  | nil => intro pos; rfl
  | cons tau rest ih => intro pos; simp [berCciFrom, ih]

theorem berCciIsiFrom_length (K : MathKit α) (g : α → α → α)
    (alpha coeff a_int omega : α) (N L M : ℕ) (u : ℕ → Bool) :
    ∀ (l : List α) (pos : ℕ),
      (berCciIsiFrom K g alpha coeff a_int omega N L M u pos l).length = l.length := by
  intro l
  induction l with
  | nil => intro pos; rfl
  | cons tau rest ih => intro pos; simp [berCciIsiFrom, ih]

/-! ### Claim theorems -/

/-- C2: in all three evaluators the series is summed over the odd integers
`m = 1, 3, 5, ...` strictly below `M` (the list `oddHarmonics M`, which is
exactly `np.arange(1, M, 2)`): it equals the odd numbers below `M` in
order, its length is `M / 2` (so `M` is never a literal term count), and
`M = 100` gives exactly the 50 terms `m = 1, ..., 99`. -/
theorem oddHarmonics_spec :
    (∀ M : ℕ, oddHarmonics M = (List.range M).filter (fun m => m % 2 = 1)) ∧
    (∀ M : ℕ, (oddHarmonics M).length = M / 2) ∧
    oddHarmonics 100 = (List.range 50).map (fun j => 2 * j + 1) ∧
    (oddHarmonics 100).length = 50 := by
  refine ⟨oddHarmonics_eq_filter, oddHarmonics_length, by decide, by decide⟩

/-- C3: `ber_cci_isi_closed_form` with `L = 0` and the randomness source
in the same state returns exactly the same BER sequence as
`ber_isi_closed_form` with the same pulse, `alpha`, `snr_db`, `nbits`,
`M`, `omega` and offsets: the Bessel product over zero CCI taps is the
empty product `1` (exact equality, hence within any tolerance). -/
theorem ber_cci_isi_L0_eq_isi (K : MathKit α) (g : α → α → α)
    (alpha snr_db sir_db : α) (nbits M : ℕ) (omega : α) (offsets : List α)
    (u : ℕ → Bool) :
    ber_cci_isi_closed_form K g alpha snr_db sir_db 0 nbits M omega offsets u
      = ber_isi_closed_form K g alpha snr_db nbits M omega offsets u := by
  unfold ber_cci_isi_closed_form ber_isi_closed_form
  exact berCciIsiFrom_L0 K g alpha _ _ omega (nbits / 2) M u offsets 0

/-- C5: the truncated pulse `truncate_pulse g t_max` agrees with `g` at
every `(t, alpha)` with `|t| ≤ t_max` and is exactly `0` whenever
`|t| > t_max`. -/
theorem truncate_pulse_spec (base : α → α → α) (t_max alpha t : α) :
    (|t| ≤ t_max → truncate_pulse base t_max t alpha = base t alpha) ∧
    (t_max < |t| → truncate_pulse base t_max t alpha = 0) := by
  constructor
  · intro h
    simp [truncate_pulse, h]
  · intro h
    simp [truncate_pulse, not_le.mpr h]

/-- Witness for C5 at `t_max = 2` with `t = 1` (inside) and `t = 3`
(outside) over `ℚ`. -/
theorem truncate_pulse_spec_witness :
    (|(1 : ℚ)| ≤ 2 ∧
      truncate_pulse (fun t a => t + a) 2 (1 : ℚ) 0 = (fun (t a : ℚ) => t + a) 1 0) ∧
    ((2 : ℚ) < |(3 : ℚ)| ∧
      truncate_pulse (fun t a => t + a) 2 (3 : ℚ) 0 = 0) :=
  ⟨⟨by decide, (truncate_pulse_spec (fun t a => t + a) 2 0 1).1 (by decide)⟩,
   ⟨by decide, (truncate_pulse_spec (fun t a => t + a) 2 0 3).2 (by decide)⟩⟩

/-- C7: resolving a string pulse reference that is not in the `PULSE_FNS`
registry yields an error (never a silently substituted default), and
resolving a callable returns it unchanged. -/
theorem resolve_pulse_spec (K : MathKit α) :
    (∀ s : String, (PULSE_FNS K).lookup s = none →
      resolve_pulse K (PulseRef.name s)
        = Except.error ("Unknown pulse name " ++ s ++ " in PULSE_FNS.")) ∧
    (∀ g : List α → α → List α,
      resolve_pulse K (PulseRef.fn g) = Except.ok g) := by
  constructor
  · intro s h
    simp [resolve_pulse, h]
  · intro g
    rfl

/-- Witness for C7: the name `gauss` is absent from the registry and is
rejected; a raw callable is returned as-is. -/
theorem resolve_pulse_spec_witness :
    ((PULSE_FNS ratKit).lookup "gauss" = none ∧
      resolve_pulse ratKit (PulseRef.name "gauss")
        = Except.error ("Unknown pulse name " ++ "gauss" ++ " in PULSE_FNS.")) ∧
    resolve_pulse ratKit (PulseRef.fn (fun t _ => t))
      = Except.ok (fun t _ => t) :=
  ⟨⟨rfl, (resolve_pulse_spec ratKit).1 "gauss" rfl⟩,
    (resolve_pulse_spec ratKit).2 (fun t _ => t)⟩

/-- C9: `compute_pulse` invoked with `normalize = continuous` and no `dt`
always fails with an error (for an unknown name it fails at lookup, for a
known name it fails at the missing sample spacing); it never returns an
un-normalized or mis-normalized vector. -/
theorem compute_pulse_continuous_requires_dt (K : MathKit α) (t : List α)
    (name : String) (alpha T : α) :
    ∃ msg, compute_pulse K t name alpha T (some "continuous") none
      = Except.error msg := by
  unfold compute_pulse
  cases h : (PULSE_FNS K).lookup name with
  | none => exact ⟨_, rfl⟩
  | some f => exact ⟨_, rfl⟩

/-- C1: at the `i`-th offset `tau`, `ber_isi_closed_form` returns exactly
`1/2 - (2/pi) * sum over odd m < M of exp(-(m w)^2/2)/m * sin(m w g0) *
prod over the 2N ISI positions k of cos(m w gk)`, with `N = nbits // 2`,
`g0 = 10^(snr_db/20) * g(tau)` and `gk = 10^(snr_db/20) * sign_k *
g(tau - k)`, where `sign_k` is the sign the randomness source supplies
for tap `k` of offset `i` (draw number `i * 2N + tapIdx N k`). -/
theorem ber_isi_closed_form_correct (K : MathKit α) (g : α → α → α)
    (alpha snr_db : α) (nbits M : ℕ) (omega : α) (offsets : List α)
    (u : ℕ → Bool) (i : ℕ) (tau : α) (h : offsets[i]? = some tau) :
    (ber_isi_closed_form K g alpha snr_db nbits M omega offsets u)[i]? =
      some (berIsiSpec K g alpha (K.pow10 (snr_db / 20)) omega (nbits / 2) M
        (fun k => signVal
          (u (i * (2 * (nbits / 2)) + tapIdx (nbits / 2) k))) tau) := by
  unfold ber_isi_closed_form
  rw [berIsiFrom_getElem, h]
  simp only [Option.map_some', zero_add, berIsiAt_eq_spec, isiPositions_length]

/-- Witness for C1: one offset list `[1/2]` over `ℚ`, `nbits = 2`,
`M = 4`. -/
theorem ber_isi_closed_form_correct_witness :
    (([(1 : ℚ)/2])[0]? = some (1/2)) ∧
    (ber_isi_closed_form ratKit (fun t a => t + a) 0 0 2 4 1 [1/2]
        (fun _ => true))[0]? =
      some (berIsiSpec ratKit (fun t a => t + a) 0 (ratKit.pow10 (0 / 20)) 1
        (2 / 2) 4
        (fun k => signVal
          ((fun _ => true) (0 * (2 * (2 / 2)) + tapIdx (2 / 2) k))) (1/2)) :=
  ⟨rfl, ber_isi_closed_form_correct ratKit (fun t a => t + a) 0 0 2 4 1 [1/2]
    (fun _ => true) 0 (1/2) rfl⟩

/-- C4: each evaluator is a pure function of its numeric inputs and the
randomness stream: two calls with identical parameters whose randomness
sources agree on the consumed prefix of draws (`len(offsets) * 2N` for
ISI, `len(offsets) * L` for CCI, `len(offsets) * (2N + L)` for the joint
model) produce identical output sequences. -/
theorem ber_determinism (K : MathKit α) (g : α → α → α)
    (alpha snr_db sir_db : α) (L nbits M : ℕ) (omega : α) (offsets : List α)
    (u1 u2 : ℕ → Bool) :
    ((∀ p < offsets.length * (2 * (nbits / 2)), u1 p = u2 p) →
      ber_isi_closed_form K g alpha snr_db nbits M omega offsets u1
        = ber_isi_closed_form K g alpha snr_db nbits M omega offsets u2) ∧
    ((∀ p < offsets.length * L, u1 p = u2 p) →
      ber_cci_closed_form K g alpha snr_db sir_db L M omega offsets u1
        = ber_cci_closed_form K g alpha snr_db sir_db L M omega offsets u2) ∧
    ((∀ p < offsets.length * (2 * (nbits / 2) + L), u1 p = u2 p) →
      ber_cci_isi_closed_form K g alpha snr_db sir_db L nbits M omega offsets u1
        = ber_cci_isi_closed_form K g alpha snr_db sir_db L nbits M omega
            offsets u2) := by
  refine ⟨fun h => ?_, fun h => ?_, fun h => ?_⟩
  · unfold ber_isi_closed_form
    apply berIsiFrom_congr
    intro p hp
    rw [isiPositions_length] at hp
    simpa using h p hp
  · unfold ber_cci_closed_form
    apply berCciFrom_congr
    intro p hp
    simpa using h p hp
  · unfold ber_cci_isi_closed_form
    apply berCciIsiFrom_congr
    intro p hp
    rw [isiPositions_length] at hp
    simpa using h p hp

/-- Witness for C4: two streams that differ only beyond the consumed
prefix give bit-identical outputs for all three evaluators. -/
theorem ber_determinism_witness :
    ber_isi_closed_form ratKit (fun t a => t * a) 1 0 2 4 1 [0] (fun _ => true)
      = ber_isi_closed_form ratKit (fun t a => t * a) 1 0 2 4 1 [0]
          (fun p => decide (p < 5)) ∧
    ber_cci_closed_form ratKit (fun t a => t * a) 1 0 0 1 4 1 [0] (fun _ => true)
      = ber_cci_closed_form ratKit (fun t a => t * a) 1 0 0 1 4 1 [0]
          (fun p => decide (p < 5)) ∧
    ber_cci_isi_closed_form ratKit (fun t a => t * a) 1 0 0 1 2 4 1 [0]
        (fun _ => true)
      = ber_cci_isi_closed_form ratKit (fun t a => t * a) 1 0 0 1 2 4 1 [0]
          (fun p => decide (p < 5)) :=
  ⟨(ber_determinism ratKit (fun t a => t * a) 1 0 0 1 2 4 1 [0] (fun _ => true)
      (fun p => decide (p < 5))).1 (by decide),
   (ber_determinism ratKit (fun t a => t * a) 1 0 0 1 2 4 1 [0] (fun _ => true)
      (fun p => decide (p < 5))).2.1 (by decide),
   (ber_determinism ratKit (fun t a => t * a) 1 0 0 1 2 4 1 [0] (fun _ => true)
      (fun p => decide (p < 5))).2.2 (by decide)⟩

/-- C6: each of the three evaluators returns one BER value per requested
timing offset, in input order: the output length equals the offsets
length, and the entry at index `i` is the per-offset BER evaluated at the
offset at index `i`. -/
theorem ber_output_indexing (K : MathKit α) (g : α → α → α)
    (alpha snr_db sir_db : α) (L nbits M : ℕ) (omega : α) (offsets : List α)
    (u : ℕ → Bool) :
    (ber_isi_closed_form K g alpha snr_db nbits M omega offsets u).length
        = offsets.length ∧
    (ber_cci_closed_form K g alpha snr_db sir_db L M omega offsets u).length
        = offsets.length ∧
    (ber_cci_isi_closed_form K g alpha snr_db sir_db L nbits M omega
        offsets u).length = offsets.length ∧
    (∀ i : ℕ,
      (ber_isi_closed_form K g alpha snr_db nbits M omega offsets u)[i]? =
        (offsets[i]?).map (fun tau =>
          berIsiAt K g alpha (K.pow10 (snr_db / 20)) omega (nbits / 2) M
            (fun j => signVal (u (i * (2 * (nbits / 2)) + j))) tau)) ∧
    (∀ i : ℕ,
      (ber_cci_closed_form K g alpha snr_db sir_db L M omega offsets u)[i]? =
        (offsets[i]?).map (fun tau =>
          berCciAt K g alpha (K.pow10 (snr_db / 20)) (K.pow10 (-sir_db / 20))
            omega L M (fun j => signVal (u (i * L + j))) tau)) ∧
    (∀ i : ℕ,
      (ber_cci_isi_closed_form K g alpha snr_db sir_db L nbits M omega
          offsets u)[i]? =
        (offsets[i]?).map (fun tau =>
          berCciIsiAt K g alpha (K.pow10 (snr_db / 20)) (K.pow10 (-sir_db / 20))
            omega (nbits / 2) L M
            (fun j => signVal (u (i * (2 * (nbits / 2) + L) + j))) tau)) := by
  refine ⟨?_, ?_, ?_, ?_, ?_, ?_⟩
  · exact berIsiFrom_length K g alpha _ omega (nbits / 2) M u offsets 0
  · exact berCciFrom_length K g alpha _ _ omega L M u offsets 0
  · exact berCciIsiFrom_length K g alpha _ _ omega (nbits / 2) L M u offsets 0
  · intro i
    unfold ber_isi_closed_form
    rw [berIsiFrom_getElem]
    simp only [zero_add, isiPositions_length]
  · intro i
    unfold ber_cci_closed_form
    rw [berCciFrom_getElem]
    simp only [zero_add]
  · intro i
    unfold ber_cci_isi_closed_form
    rw [berCciIsiFrom_getElem]
    simp only [zero_add, isiPositions_length]

/-- C10: every value any of the three evaluators returns lies within
`(2/pi) * S` of `1/2`, where `S = sum over odd m < M of exp(-(m w)^2/2)/m`,
for any pulse, offsets and sign draws — because the sine, cosine and `J0`
factors all have magnitude at most `1` and the exponential factor is
nonnegative. -/
theorem ber_output_bounds (K : MathKit α) (g : α → α → α)
    (alpha snr_db sir_db : α) (L nbits M : ℕ) (omega : α) (offsets : List α)
    (u : ℕ → Bool)
    (hexp : ∀ x, 0 ≤ K.exp x) (hsin : ∀ x, |K.sin x| ≤ 1)
    (hcos : ∀ x, |K.cos x| ≤ 1) (hj0 : ∀ x, |K.j0 x| ≤ 1) (hpi : 0 < K.pi) :
    (∀ v ∈ ber_isi_closed_form K g alpha snr_db nbits M omega offsets u,
      1 / 2 - 2 / K.pi * seriesBound K omega M ≤ v ∧
        v ≤ 1 / 2 + 2 / K.pi * seriesBound K omega M) ∧
    (∀ v ∈ ber_cci_closed_form K g alpha snr_db sir_db L M omega offsets u,
      1 / 2 - 2 / K.pi * seriesBound K omega M ≤ v ∧
        v ≤ 1 / 2 + 2 / K.pi * seriesBound K omega M) ∧
    (∀ v ∈ ber_cci_isi_closed_form K g alpha snr_db sir_db L nbits M omega
        offsets u,
      1 / 2 - 2 / K.pi * seriesBound K omega M ≤ v ∧
        v ≤ 1 / 2 + 2 / K.pi * seriesBound K omega M) := by
  refine ⟨?_, ?_, ?_⟩
  · intro v hv
    exact berIsiFrom_bounds K g alpha _ omega (nbits / 2) M u
      hexp hsin hcos hpi offsets 0 v hv
  · intro v hv
    exact berCciFrom_bounds K g alpha _ _ omega L M u
      hexp hsin hj0 hpi offsets 0 v hv
  · intro v hv
    exact berCciIsiFrom_bounds K g alpha _ _ omega (nbits / 2) L M u
      hexp hsin hcos hj0 hpi offsets 0 v hv

/-- Witness for C10: the bound instantiated at the first output value of
a concrete rational-kit run. -/
theorem ber_output_bounds_witness :
    1 / 2 - 2 / ratKit.pi * seriesBound ratKit 1 4
        ≤ (ber_isi_closed_form ratKit (fun t a => t + a) 1 0 2 4 1 [0]
            (fun _ => true)).headI ∧
      (ber_isi_closed_form ratKit (fun t a => t + a) 1 0 2 4 1 [0]
          (fun _ => true)).headI
        ≤ 1 / 2 + 2 / ratKit.pi * seriesBound ratKit 1 4 :=
  (ber_output_bounds ratKit (fun t a => t + a) 1 0 0 1 2 4 1 [0]
      (fun _ => true)
      (fun _ => by norm_num [ratKit]) (fun _ => by norm_num [ratKit])
      (fun _ => by norm_num [ratKit]) (fun _ => by norm_num [ratKit])
      (by norm_num [ratKit])).1 _
    (by simp [ber_isi_closed_form, berIsiFrom])

/-- C8 (counter-evidence): `iplcp_pulse` unconditionally overwrites the
sample whose time is closest to zero.  On the vector `[1.0]` (default
shape parameters, `alpha = 0.35`) the overwritten point `t = 1` is not a
removable singularity (its denominator is nonzero), yet the returned
value is the envelope `exp(-0.1 pi^2)`, which differs from the
closed-form value `0` computed by the very formula the function
evaluates elsewhere. -/
theorem iplcp_nonsingular_overwrite :
    iplcp_pulse realKit [(1 : ℝ)] (7/20) (16/10) (1/10) 1 1
        = [Real.exp (-(1/10) * Real.pi ^ 2 * 1 ^ 2)] ∧
    iplcp_formulaAt realKit 1 (7/20) (16/10) (1/10) 1 = 0 ∧
    Real.pi ^ 2 * (7/20 : ℝ) ^ 2 * 1 ^ 2 ≠ 0 ∧
    Real.exp (-(1/10) * Real.pi ^ 2 * 1 ^ 2) ≠ 0 := by
  refine ⟨?_, ?_, ?_, ?_⟩
  · simp [iplcp_pulse, argminAbs, argminAbsAux, iplcp_envelopeAt, realKit]
  · simp [iplcp_formulaAt, sinc, realKit, Real.sin_pi]
  · positivity
  · exact Real.exp_ne_zero _

end PulseAnalysis
